import Mathlib

/-!
Verification of the Master's League fantasy-football backend (`app.py`).

This file shallowly embeds the algorithmic core of the backend:

* `load_schedule` / `default_schedule` — the schedule store (§4.4 of the spec);
* `generate_round_robin` — the circle-method round-robin generator (§4.1);
* `get_weekly_data` — the weekly aggregator (§4.2);
* `get_all_weekly_data` — the season aggregator (§4.3);

and proves the spec's claims about them.

Modelling conventions:
* Python `None` (the bye placeholder) is modelled by `Option.none`; a roster
  slot is `Option Nat` (`some id` for a real team id).
* ESPN's numeric scores are modelled as integers `Int`; the code only
  compares scores with `0`, so only the ordered-ring structure matters.
* A Python `dict` built by item assignment is modelled as an association
  list in insertion order with in-place overwrite (`dictInsert`), which is
  exactly Python's observable dict behaviour for keys and values.
* Fallible operations (`json.load`, the ESPN provider calls) return
  `Except String _`; a raised exception is the `error` case.
-/

/-- A slot in the rotating roster: a team id, or the bye placeholder
(Python `None`). -/
abbrev Slot := Option Nat

/-- `REGULAR_SEASON_WEEKS = 13` from the configuration section of `app.py`. -/
def REGULAR_SEASON_WEEKS : Nat := 13

/-- A schedule: the JSON object `{week_string: [[t1,t2], ...], ...}` in key
insertion order. -/
abbrev Schedule := List (String × List (Nat × Nat))

/-- The hardcoded 13-week default schedule returned by `load_schedule` when
no `schedule.json` exists (lines 34-49 of `app.py`), transcribed literally. -/
def default_schedule : Schedule :=
  [ ("1",  [(1,2),(3,4),(5,6),(7,8),(9,10)])
  , ("2",  [(1,3),(2,5),(4,7),(6,9),(8,10)])
  , ("3",  [(1,4),(2,6),(3,8),(5,9),(7,10)])
  , ("4",  [(1,5),(2,7),(3,9),(4,6),(8,10)])
  , ("5",  [(1,6),(2,8),(3,10),(4,5),(7,9)])
  , ("6",  [(1,7),(2,9),(3,5),(4,8),(6,10)])
  , ("7",  [(1,8),(2,10),(3,6),(4,9),(5,7)])
  , ("8",  [(1,9),(2,4),(3,7),(5,10),(6,8)])
  , ("9",  [(1,10),(2,3),(4,10),(5,8),(6,7)])
  , ("10", [(1,2),(3,4),(5,6),(7,8),(9,10)])
  , ("11", [(1,3),(2,5),(4,7),(6,9),(8,10)])
  , ("12", [(1,4),(2,6),(3,8),(5,9),(7,10)])
  , ("13", [(1,5),(2,7),(3,9),(4,6),(8,10)])
  ]

/-- The observable state of `schedule.json` when `load_schedule` runs:
absent, present but not valid JSON (so `json.load` raises), or present and
decoding to a schedule value. -/
inductive FileState where
  | missing : FileState
  | malformed : FileState
  | parsed : Schedule → FileState

/-- `load_schedule` (lines 28-49 of `app.py`): if the file exists the result
of `json.load` is returned — including a raised `JSONDecodeError`, which
propagates, since only `path.exists()` is checked; otherwise the hardcoded
default is returned. -/
def load_schedule : FileState → Except String Schedule
  | FileState.missing => Except.ok default_schedule
  | FileState.malformed => Except.error "JSONDecodeError"
  | FileState.parsed s => Except.ok s

/-- The invariant stated in §3 of the spec for one week's matchup list:
each pair lists two distinct team ids and a team appears in at most one
pair — equivalently, the flattened list of team ids has no duplicate. -/
def weekInvariant (ms : List (Nat × Nat)) : Prop :=
  (ms.flatMap (fun p => [p.1, p.2])).Nodup

instance (ms : List (Nat × Nat)) : Decidable (weekInvariant ms) := by
  unfold weekInvariant; infer_instance

/-- The §3 invariant for a whole schedule: every week's list satisfies
`weekInvariant`. -/
def scheduleInvariant (s : Schedule) : Prop :=
  ∀ e ∈ s, weekInvariant e.2

instance (s : Schedule) : Decidable (scheduleInvariant s) := by
  unfold scheduleInvariant; infer_instance

/- ### The round-robin generator (`generate_round_robin`, lines 168-194) -/

/-- `teams = team_ids.copy(); if n % 2 == 1: teams.append(None)` — append the
bye placeholder when the team count is odd. -/
def adjustTeams (team_ids : List Nat) : List Slot :=
  team_ids.map some ++ (if team_ids.length % 2 = 1 then [none] else [])

/-- One week's rotation (line 183 of `app.py`):
`rotated = [teams[0]] + teams[1:][-(round_idx):] + teams[1:][:-(round_idx)]
if round_idx else teams` with `round_idx = (week - 1) % (n - 1)`.
For `round_idx = 0` both branches produce `teams`, so the expression below
covers both (`drop (m - 0)` of the tail is `[]` and `take (m - 0)` is the
whole tail). -/
def rotateTeams (teams : List Slot) (week : Nat) : List Slot :=
  let n := teams.length
  let r := (week - 1) % (n - 1)
  teams.take 1 ++ (teams.drop 1).drop ((n - 1) - r) ++ (teams.drop 1).take ((n - 1) - r)

/-- The pairing loop (lines 186-190): for `i in range(n // 2)` take
`t1, t2 = rotated[i], rotated[n - 1 - i]` (indices are always in bounds, so
the `getD` default is never used). -/
def slotPairs (rotated : List Slot) : List (Slot × Slot) :=
  (List.range (rotated.length / 2)).map
    (fun i => (rotated.getD i none, rotated.getD (rotated.length - 1 - i) none))

/-- The body of the pairing loop keeps a pair only when neither slot is the
bye placeholder (`if t1 is not None and t2 is not None`). -/
def keepMatch : Slot × Slot → Option (Nat × Nat)
  | (some t1, some t2) => some (t1, t2)
  | _ => none

/-- One week's matchup list as produced by `generate_round_robin`. -/
def weekMatchups (teams : List Slot) (week : Nat) : List (Nat × Nat) :=
  (slotPairs (rotateTeams teams week)).filterMap keepMatch

/-- `generate_round_robin(team_ids, weeks)` (lines 168-194): the schedule
dict `{str(week): matchups}` for `week = 1 .. weeks`, in insertion order. -/
def generate_round_robin (team_ids : List Nat) (weeks : Nat) : Schedule :=
  (List.range weeks).map
    (fun k => (toString (k + 1), weekMatchups (adjustTeams team_ids) (k + 1)))

/-- The team ids that appear in some matchup of a generated week (a team
absent from this list has a bye that week). -/
def teamsOfWeek (team_ids : List Nat) (week : Nat) : List Nat :=
  (weekMatchups (adjustTeams team_ids) week).flatMap (fun p => [p.1, p.2])

/- ### The weekly and season aggregators (lines 82-111) -/

/-- One head-to-head box score from the ESPN provider: home/away team ids
and scores. -/
structure BoxScore where
  home_id : Nat
  away_id : Nat
  home_score : Int
  away_score : Int
  deriving DecidableEq, Repr

/-- Python dict item assignment `d[k] = v`: overwrite in place when the key
exists (keeping its position), else append at the end. -/
def dictInsert (d : List (Nat × Int)) (k : Nat) (v : Int) : List (Nat × Int) :=
  if d.any (fun p => p.1 = k) then
    d.map (fun p => if p.1 = k then (k, v) else p)
  else
    d ++ [(k, v)]

/-- The weekly result returned by `get_weekly_data`: the week number, the
per-team score dict (in insertion order) and the provider's matchup pairs. -/
structure WeeklyResult where
  week : Nat
  scores : List (Nat × Int)
  espnMatchups : List (Nat × Nat)
  deriving DecidableEq, Repr

/-- `get_weekly_data(league, week)` (lines 82-98): one loop over
`league.box_scores(week)` that assigns `scores[home_id] = home_score`,
`scores[away_id] = away_score` and appends `[home_id, away_id]` to
`espn_matchups`. -/
def get_weekly_data (week : Nat) (boxes : List BoxScore) : WeeklyResult :=
  let st := boxes.foldl
    (fun (st : List (Nat × Int) × List (Nat × Nat)) b =>
      (dictInsert (dictInsert st.1 b.home_id b.home_score) b.away_id b.away_score,
       st.2 ++ [(b.home_id, b.away_id)]))
    ([], [])
  { week := week, scores := st.1, espnMatchups := st.2 }

/-- `get_all_weekly_data(league)` (lines 100-111):
`current_week = min(league.current_week, REGULAR_SEASON_WEEKS)`, then for
each `week in range(1, current_week + 1)` fetch the week's box scores
(`fetch` models `league.box_scores(week)`, whose failure raises and is
caught by the surrounding `try`/`except`, skipping the week) and append the
weekly result when `any(score > 0 for score in scores.values())`. -/
def get_all_weekly_data (current_week : Nat)
    (fetch : Nat → Except String (List BoxScore)) : List WeeklyResult :=
  (List.range (min current_week REGULAR_SEASON_WEEKS)).filterMap
    (fun k =>
      match fetch (k + 1) with
      | Except.error _ => none
      | Except.ok boxes =>
        let wd := get_weekly_data (k + 1) boxes
        if wd.scores.any (fun p => 0 < p.2) then some wd else none)

/-- A provider stub used in witnesses: every week succeeds with one box
score whose home side scored positively. -/
def exFetch : Nat → Except String (List BoxScore) :=
  fun w => Except.ok [⟨1, 2, Int.ofNat (10 * w), 5⟩]

/-- A provider stub used in witnesses: week 1 raises, every other week
succeeds with a positively scored box score. -/
def exFetchFail1 : Nat → Except String (List BoxScore) :=
  fun w => if w = 1 then Except.error "ESPN timeout" else Except.ok [⟨1, 2, 10, 5⟩]

/- ### Theorems -/

/-- **C5.** `generate_round_robin([1,2,3,4], weeks=3)` returns exactly the
schedule `{"1": [[1,4],[2,3]], "2": [[1,3],[4,2]], "3": [[1,2],[3,4]]}`, with
pairs and pairs-within-week in exactly that order. -/
theorem C5_generate_round_robin_concrete :
    generate_round_robin [1,2,3,4] 3 =
      [ ("1", [(1,4),(2,3)]), ("2", [(1,3),(4,2)]), ("3", [(1,2),(3,4)]) ] := by
  decide

/-- **C1.** The claim that every schedule the system produces satisfies the
§3 invariant fails on the hardcoded default: `load_schedule` with no
persisted file returns `default_schedule`, whose week `"9"` entry
`[[1,10],[2,3],[4,10],[5,8],[6,7]]` lists team 10 in two pairs (and team 9
in none), so the week's flattened team list has a duplicate.  This is a slip
in the literal table (the code's own comment calls it a round robin, and the
pattern of weeks 1-8 shows `[4,10]` was meant to be `[4,9]`). -/
theorem C1_default_schedule_week9_violation :
    load_schedule FileState.missing = Except.ok default_schedule ∧
    ("9", [(1,10),(2,3),(4,10),(5,8),(6,7)]) ∈ default_schedule ∧
    (([(1,10),(2,3),(4,10),(5,8),(6,7)] : List (Nat × Nat)).flatMap
        (fun p => [p.1, p.2])).count 10 = 2 ∧
    ¬ scheduleInvariant default_schedule := by
  refine ⟨rfl, by decide, by decide, ?_⟩
  intro h
  have h9 := h ("9", [(1,10),(2,3),(4,10),(5,8),(6,7)]) (by decide)
  exact absurd h9 (by decide)

/-- **C2 (counterexample).** The claim says `load()` never fails and treats a
malformed schedule file like a missing one; in the code only
`path.exists()` is checked, so on a malformed existing file `json.load`
raises and the error propagates out of `load_schedule`. -/
theorem C2_counterexample_malformed_raises :
    load_schedule FileState.malformed = Except.error "JSONDecodeError" := rfl

/-- **C2 (amended).** `load()` falls back to the hardcoded default exactly
when the file is missing; an existing file that parses is returned as-is,
and an existing malformed file makes `load()` raise (the JSON decode error
propagates to the caller). -/
theorem C2_amended_load_behavior :
    load_schedule FileState.missing = Except.ok default_schedule ∧
    (∀ s : Schedule, load_schedule (FileState.parsed s) = Except.ok s) ∧
    ∃ e, load_schedule FileState.malformed = Except.error e :=
  ⟨rfl, fun _ => rfl, "JSONDecodeError", rfl⟩

/-- Membership characterization of the season aggregator's output: a weekly
result is in the output exactly when it is the aggregation of a fetched week
in range `1 .. min(currentWeek, REGULAR_SEASON_WEEKS)` whose fetch succeeded
and that has at least one strictly positive score. -/
theorem mem_get_all_weekly_data_iff (cw : Nat)
    (fetch : Nat → Except String (List BoxScore)) (wd : WeeklyResult) :
    wd ∈ get_all_weekly_data cw fetch ↔
      ∃ w boxes, 1 ≤ w ∧ w ≤ min cw REGULAR_SEASON_WEEKS ∧
        fetch w = Except.ok boxes ∧
        (∃ p ∈ (get_weekly_data w boxes).scores, 0 < p.2) ∧
        wd = get_weekly_data w boxes := by
  unfold get_all_weekly_data
  rw [List.mem_filterMap]
  constructor
  · rintro ⟨k, hk, hsome⟩
    rw [List.mem_range] at hk
    rcases hfk : fetch (k + 1) with e | boxes <;> rw [hfk] at hsome <;>
      dsimp only at hsome
    · simp at hsome
    · by_cases hpos : (get_weekly_data (k + 1) boxes).scores.any (fun p => 0 < p.2)
      · rw [if_pos hpos] at hsome
        refine ⟨k + 1, boxes, by omega, by omega, hfk, ?_, ?_⟩
        · rcases List.any_eq_true.mp hpos with ⟨p, hp, hp2⟩
          exact ⟨p, hp, by simpa using hp2⟩
        · exact (Option.some_inj.mp hsome).symm
      · rw [if_neg hpos] at hsome
        simp at hsome
  · rintro ⟨w, boxes, h1, h2, hf, hpos, hwd⟩
    refine ⟨w - 1, List.mem_range.mpr (by omega), ?_⟩
    have hw : w - 1 + 1 = w := by omega
    rw [hw, hf]
    dsimp only
    have hany : (get_weekly_data w boxes).scores.any (fun p => 0 < p.2) = true := by
      rcases hpos with ⟨p, hp, hp2⟩
      exact List.any_eq_true.mpr ⟨p, hp, by simpa using hp2⟩
    rw [if_pos hany, hwd]

/-- The `week` field of a weekly result records the week it was built for. -/
theorem week_get_weekly_data (w : Nat) (boxes : List BoxScore) :
    (get_weekly_data w boxes).week = w := rfl

/-- **C3 (counterexample).** A week whose only scores are `-5` and `0` has a
nonzero score, yet the code's test `any(score > 0)` excludes it from the
season aggregation, refuting the claim's "iff at least one score is nonzero". -/
theorem C3_counterexample_negative_score_week_excluded :
    (∃ p ∈ (get_weekly_data 1 [⟨1, 2, -5, 0⟩]).scores, p.2 ≠ 0) ∧
    (fun _ => Except.ok [⟨1, 2, -5, 0⟩] : Nat → Except String (List BoxScore)) 1 =
      Except.ok [⟨1, 2, -5, 0⟩] ∧
    get_all_weekly_data 1 (fun _ => Except.ok [⟨1, 2, -5, 0⟩]) = [] := by
  refine ⟨⟨(1, -5), by decide, by decide⟩, rfl, by decide⟩

/-- **C3 (amended).** For every week in range whose fetch succeeds, the
season aggregator appends that week's result if and only if at least one
team's score for that week is *strictly positive*; in particular an all-zero
week is excluded and a week with a positive score is included. -/
theorem C3_amended_inclusion_iff_positive_score (cw w : Nat)
    (fetch : Nat → Except String (List BoxScore)) (boxes : List BoxScore)
    (h1 : 1 ≤ w) (h2 : w ≤ min cw REGULAR_SEASON_WEEKS)
    (hf : fetch w = Except.ok boxes) :
    get_weekly_data w boxes ∈ get_all_weekly_data cw fetch ↔
      ∃ p ∈ (get_weekly_data w boxes).scores, 0 < p.2 := by
  rw [mem_get_all_weekly_data_iff]
  constructor
  · rintro ⟨w', boxes', h1', h2', hf', hpos', heq⟩
    have hw : w' = w := by
      have := congrArg WeeklyResult.week heq
      rw [week_get_weekly_data, week_get_weekly_data] at this
      omega
    subst hw
    rw [hf] at hf'
    have hb : boxes = boxes' := by
      injection hf'
    rw [hb]
    exact hpos'
  · intro hpos
    exact ⟨w, boxes, h1, h2, hf, hpos, rfl⟩

/-- **C3 (amended) witness:** week 1 of `exFetch` (scores 10 and 5) is
included in the season output. -/
theorem C3_amended_witness :
    get_weekly_data 1 [⟨1, 2, 10, 5⟩] ∈ get_all_weekly_data 1 exFetch :=
  (C3_amended_inclusion_iff_positive_score 1 1 exFetch [⟨1, 2, 10, 5⟩]
    (by decide) (by decide) rfl).mpr ⟨(1, 10), by decide, by decide⟩

/-- **C4.** The season aggregator always returns normally (it is a total
function here, mirroring that the `try`/`except` around each week catches
every per-week failure), its output consists exactly of the aggregations of
the non-failing weeks in range that pass the inclusion rule, and a week
whose fetch raises contributes nothing: no output entry carries its week
number. -/
theorem C4_failing_weeks_skipped (cw : Nat)
    (fetch : Nat → Except String (List BoxScore)) :
    (∀ wd, wd ∈ get_all_weekly_data cw fetch ↔
      ∃ w boxes, 1 ≤ w ∧ w ≤ min cw REGULAR_SEASON_WEEKS ∧
        fetch w = Except.ok boxes ∧
        (∃ p ∈ (get_weekly_data w boxes).scores, 0 < p.2) ∧
        wd = get_weekly_data w boxes) ∧
    (∀ w e, fetch w = Except.error e →
      ∀ wd ∈ get_all_weekly_data cw fetch, wd.week ≠ w) := by
  refine ⟨mem_get_all_weekly_data_iff cw fetch, ?_⟩
  intro w e hfe wd hwd
  rcases (mem_get_all_weekly_data_iff cw fetch wd).mp hwd with
    ⟨w', boxes, _, _, hf', _, rfl⟩
  rw [week_get_weekly_data]
  intro hww
  rw [hww, hfe] at hf'
  exact Except.noConfusion hf'

/-- **C4 witness:** with a provider that raises on week 1 and succeeds on
week 2, the aggregation still returns and contains week 2 but nothing for
week 1. -/
theorem C4_witness :
    (∀ wd ∈ get_all_weekly_data 2 exFetchFail1, wd.week ≠ 1) ∧
    get_weekly_data 2 [⟨1, 2, 10, 5⟩] ∈ get_all_weekly_data 2 exFetchFail1 := by
  have h := C4_failing_weeks_skipped 2 exFetchFail1
  exact ⟨fun wd hwd => h.2 1 "ESPN timeout" rfl wd hwd,
    (h.1 _).mpr ⟨2, [⟨1, 2, 10, 5⟩], by decide, by decide, rfl,
      ⟨(1, 10), by decide, by decide⟩, rfl⟩⟩

/-- The single loop of `get_weekly_data` splits into the score fold and the
matchup accumulation. -/
theorem weekly_fold_split :
    ∀ (boxes : List BoxScore) (s0 : List (Nat × Int)) (m0 : List (Nat × Nat)),
      boxes.foldl
        (fun (st : List (Nat × Int) × List (Nat × Nat)) b =>
          (dictInsert (dictInsert st.1 b.home_id b.home_score) b.away_id b.away_score,
           st.2 ++ [(b.home_id, b.away_id)])) (s0, m0)
      = (boxes.foldl
          (fun s b => dictInsert (dictInsert s b.home_id b.home_score) b.away_id b.away_score)
          s0,
         m0 ++ boxes.map (fun b => (b.home_id, b.away_id))) := by
  intro boxes
  induction boxes with
  | nil => simp
  | cons b t ih =>
    intro s0 m0
    rw [List.foldl_cons, List.foldl_cons, ih]
    simp

/-- `espnMatchups` lists exactly one `[home_id, away_id]` pair per box
score, in provider order. -/
theorem espnMatchups_get_weekly_data (w : Nat) (boxes : List BoxScore) :
    (get_weekly_data w boxes).espnMatchups =
      boxes.map (fun b => (b.home_id, b.away_id)) := by
  unfold get_weekly_data
  rw [weekly_fold_split]
  simp

/-- The `scores` dict is the fold of the two per-box insertions. -/
theorem scores_get_weekly_data (w : Nat) (boxes : List BoxScore) :
    (get_weekly_data w boxes).scores =
      boxes.foldl
        (fun s b => dictInsert (dictInsert s b.home_id b.home_score) b.away_id b.away_score)
        [] := by
  unfold get_weekly_data
  rw [weekly_fold_split]

/-- Inserting a key into the score dict inserts it into the key set. -/
theorem keys_dictInsert (d : List (Nat × Int)) (k : Nat) (v : Int) :
    ((dictInsert d k v).map Prod.fst).toFinset =
      insert k (d.map Prod.fst).toFinset := by
  unfold dictInsert
  by_cases h : d.any (fun p => p.1 = k)
  · rw [if_pos h, List.map_map]
    have hmap : d.map (Prod.fst ∘ fun p => if p.1 = k then (k, v) else p) =
        d.map Prod.fst := by
      refine List.map_congr_left ?_
      intro p _
      by_cases hp : p.1 = k
      · simp [hp]
      · simp [hp]
    rw [hmap]
    rcases List.any_eq_true.mp h with ⟨p, hp, hpk⟩
    have hk : k ∈ d.map Prod.fst :=
      List.mem_map.mpr ⟨p, hp, by simpa using hpk⟩
    exact (Finset.insert_eq_self.mpr (List.mem_toFinset.mpr hk)).symm
  · rw [if_neg h, List.map_append, List.toFinset_append]
    simp [Finset.union_comm, Finset.insert_eq]

/-- The key set accumulated by the score fold is the starting key set plus
every home/away id of the boxes. -/
theorem keys_scores_fold :
    ∀ (boxes : List BoxScore) (d : List (Nat × Int)),
      ((boxes.foldl
          (fun s b => dictInsert (dictInsert s b.home_id b.home_score) b.away_id b.away_score)
          d).map Prod.fst).toFinset =
        (d.map Prod.fst).toFinset ∪
          (boxes.flatMap (fun b => [b.home_id, b.away_id])).toFinset := by
  intro boxes
  induction boxes with
  | nil => simp
  | cons b t ih =>
    intro d
    rw [List.foldl_cons, ih, keys_dictInsert, keys_dictInsert,
      List.flatMap_cons, List.toFinset_append]
    generalize (d.map Prod.fst).toFinset = K
    generalize ((t.flatMap fun b => [b.home_id, b.away_id])).toFinset = T
    ext x
    simp
    tauto

/-- **C10.** The weekly aggregator's invariants: the key set of `scores`
equals the set of team ids occurring in `espnMatchups`, each `espnMatchups`
entry is the `[home_id, away_id]` pair of the corresponding box result in
provider order, and there is exactly one entry per box result. -/
theorem C10_weekly_aggregator_shape (week : Nat) (boxes : List BoxScore) :
    ((get_weekly_data week boxes).scores.map Prod.fst).toFinset =
      ((get_weekly_data week boxes).espnMatchups.flatMap
        (fun p => [p.1, p.2])).toFinset ∧
    (get_weekly_data week boxes).espnMatchups =
      boxes.map (fun b => (b.home_id, b.away_id)) ∧
    (get_weekly_data week boxes).espnMatchups.length = boxes.length := by
  refine ⟨?_, espnMatchups_get_weekly_data week boxes, ?_⟩
  · rw [scores_get_weekly_data, keys_scores_fold,
      espnMatchups_get_weekly_data, List.flatMap_map]
    simp
  · rw [espnMatchups_get_weekly_data, List.length_map]

/-- A `filterMap` that, where it keeps anything, keeps `h a`, produces a
sublist of `map h`. -/
theorem filterMap_sublist_map {α β : Type} (g : α → Option β) (h : α → β) :
    ∀ l : List α, (∀ a ∈ l, g a = none ∨ g a = some (h a)) →
      List.Sublist (l.filterMap g) (l.map h) := by
  intro l
  induction l with
  | nil => simp
  | cons a t ih =>
    intro hall
    rcases hall a (by simp) with ha | ha
    · rw [List.filterMap_cons, ha, List.map_cons]
      exact (ih fun x hx => hall x (by simp [hx])).cons _
    · rw [List.filterMap_cons, ha, List.map_cons]
      exact (ih fun x hx => hall x (by simp [hx])).cons₂ _

/-- **C9.** The season aggregator visits weeks `1 .. min(currentWeek,
regularSeasonWeeks)` in increasing order (the output's week numbers are
strictly increasing and lie in that range), its length is bounded by
`min(currentWeek, regularSeasonWeeks)`, and — the provider's per-week data
being a fixed function — the output length is monotone in `currentWeek`. -/
theorem C9_bound_and_monotone (cw cw' : Nat)
    (fetch : Nat → Except String (List BoxScore)) (h : cw ≤ cw') :
    ((get_all_weekly_data cw fetch).map WeeklyResult.week).Pairwise (· < ·) ∧
    (∀ wd ∈ get_all_weekly_data cw fetch,
      1 ≤ wd.week ∧ wd.week ≤ min cw REGULAR_SEASON_WEEKS) ∧
    (get_all_weekly_data cw fetch).length ≤ min cw REGULAR_SEASON_WEEKS ∧
    (get_all_weekly_data cw fetch).length ≤
      (get_all_weekly_data cw' fetch).length := by
  refine ⟨?_, ?_, ?_, ?_⟩
  · rw [get_all_weekly_data, List.map_filterMap]
    have hsub : List.Sublist
        ((List.range (min cw REGULAR_SEASON_WEEKS)).filterMap
          (fun k => Option.map WeeklyResult.week
            (match fetch (k + 1) with
             | Except.error _ => none
             | Except.ok boxes =>
               let wd := get_weekly_data (k + 1) boxes
               if wd.scores.any (fun p => 0 < p.2) then some wd else none)))
        ((List.range (min cw REGULAR_SEASON_WEEKS)).map (fun k => k + 1)) := by
      refine filterMap_sublist_map _ _ _ ?_
      intro k _
      rcases hfk : fetch (k + 1) with e | boxes
      · left; rfl
      · dsimp only
        by_cases hpos : (get_weekly_data (k + 1) boxes).scores.any (fun p => 0 < p.2)
        · right; rw [if_pos hpos]; rfl
        · left; rw [if_neg hpos]; rfl
    refine List.Pairwise.sublist hsub ?_
    rw [List.pairwise_map]
    exact (List.pairwise_lt_range _).imp (by omega)
  · intro wd hwd
    rcases (mem_get_all_weekly_data_iff cw fetch wd).mp hwd with
      ⟨w, boxes, h1, h2, _, _, rfl⟩
    rw [week_get_weekly_data]
    exact ⟨h1, h2⟩
  · calc (get_all_weekly_data cw fetch).length
        ≤ (List.range (min cw REGULAR_SEASON_WEEKS)).length :=
          List.length_filterMap_le _ _
      _ = min cw REGULAR_SEASON_WEEKS := List.length_range _
  · exact List.Sublist.length_le
      (List.Sublist.filterMap _
        (List.range_sublist.mpr (by omega)))

/-- **C9 witness:** with the all-positive provider `exFetch`, the length
bound and monotonicity hold concretely at `currentWeek = 2 ≤ 3`. -/
theorem C9_witness :
    (get_all_weekly_data 2 exFetch).length ≤ min 2 REGULAR_SEASON_WEEKS ∧
    (get_all_weekly_data 2 exFetch).length ≤
      (get_all_weekly_data 3 exFetch).length := by
  have h := C9_bound_and_monotone 2 3 exFetch (by decide)
  exact ⟨h.2.2.1, h.2.2.2⟩

/- ### Structure of the circle-method rotation -/

/-- On a nonempty roster, one week's rotation is the head followed by a
`List.rotate` of the tail. -/
theorem rotateTeams_cons (a : Slot) (t : List Slot) (w : Nat) :
    rotateTeams (a :: t) w =
      a :: t.rotate (t.length - (w - 1) % t.length) := by
  unfold rotateTeams
  rw [List.rotate_eq_drop_append_take (Nat.sub_le _ _)]
  simp

/-- The rotation is a permutation of the roster. -/
theorem rotateTeams_perm (L : List Slot) (w : Nat) :
    List.Perm (rotateTeams L w) L := by
  cases L with
  | nil => rw [rotateTeams]; simp
  | cons a t =>
    rw [rotateTeams_cons]
    exact List.Perm.cons a (t.rotate_perm _)

/-- Rotation preserves the roster length. -/
theorem length_rotateTeams (L : List Slot) (w : Nat) :
    (rotateTeams L w).length = L.length :=
  (rotateTeams_perm L w).length_eq

/-- Rotation preserves freedom from duplicates. -/
theorem nodup_rotateTeams (L : List Slot) (w : Nat) (h : L.Nodup) :
    (rotateTeams L w).Nodup :=
  ((rotateTeams_perm L w).nodup_iff).mpr h

/-- Position `1 + j` of the rotated roster holds tail position
`(j + (t.length - r)) % t.length`, `r` being the week's rotation offset. -/
theorem getD_rotateTeams_cons (a : Slot) (t : List Slot) (w j : Nat)
    (hj : j < t.length) :
    (rotateTeams (a :: t) w).getD (j + 1) none =
      t.getD ((j + (t.length - (w - 1) % t.length)) % t.length) none := by
  rw [rotateTeams_cons]
  show (t.rotate (t.length - (w - 1) % t.length)).getD j none = _
  rw [List.getD_eq_getElem _ _ (by simpa using hj),
    List.getD_eq_getElem _ _ (Nat.mod_lt _ (by omega))]
  exact List.getElem_rotate t _ j (by simpa using hj)

/-- Membership in the pairing list, by loop index. -/
theorem mem_slotPairs_iff (R : List Slot) (q : Slot × Slot) :
    q ∈ slotPairs R ↔
      ∃ i, i < R.length / 2 ∧
        q = (R.getD i none, R.getD (R.length - 1 - i) none) := by
  unfold slotPairs
  simp only [List.mem_map, List.mem_range]
  constructor
  · rintro ⟨i, hi, rfl⟩; exact ⟨i, hi, rfl⟩
  · rintro ⟨i, hi, rfl⟩; exact ⟨i, hi, rfl⟩

/-- Peeling the outermost pair off the pairing loop: on a roster of shape
`a :: mid ++ [b]`, index 0 pairs `a` with `b` and the remaining indices
pair `mid` as they do on `mid` alone. -/
theorem slotPairs_cons_concat (a b : Slot) (mid : List Slot) :
    slotPairs (a :: (mid ++ [b])) = (a, b) :: slotPairs mid := by
  unfold slotPairs
  have hlen : (a :: (mid ++ [b])).length = mid.length + 2 := by simp
  rw [hlen]
  have hdiv : (mid.length + 2) / 2 = mid.length / 2 + 1 := by omega
  rw [hdiv, List.range_succ_eq_map, List.map_cons]
  congr 1
  · have h1 : (a :: (mid ++ [b])).getD 0 none = a := rfl
    have h2 : (a :: (mid ++ [b])).getD (mid.length + 2 - 1 - 0) none = b := by
      show (mid ++ [b]).getD mid.length none = b
      rw [List.getD_eq_getElem _ _ (by simp)]
      simp
    rw [h1, h2]
  · rw [List.map_map]
    refine List.map_congr_left ?_
    intro i hi
    rw [List.mem_range] at hi
    have hi2 : i < mid.length := by omega
    have h1 : (a :: (mid ++ [b])).getD (Nat.succ i) none = mid.getD i none := by
      show (mid ++ [b]).getD i none = mid.getD i none
      rw [List.getD_eq_getElem _ _ (by simp; omega), List.getD_eq_getElem _ _ hi2]
      exact List.getElem_append_left hi2
    have h2 : (a :: (mid ++ [b])).getD (mid.length + 2 - 1 - Nat.succ i) none =
        mid.getD (mid.length - 1 - i) none := by
      have he : mid.length + 2 - 1 - Nat.succ i = (mid.length - 1 - i) + 1 := by omega
      rw [he]
      show (mid ++ [b]).getD (mid.length - 1 - i) none = _
      have hlt : mid.length - 1 - i < mid.length := by omega
      rw [List.getD_eq_getElem _ _ (by simp; omega), List.getD_eq_getElem _ _ hlt]
      exact List.getElem_append_left hlt
    rw [Function.comp_apply, h1, h2]

/-- The flattened pairing list of an even roster is a permutation of the
roster: every slot is used in exactly one pair. -/
theorem slotPairs_flat_perm :
    ∀ (N : Nat) (L : List Slot), L.length = N → N % 2 = 0 →
      List.Perm ((slotPairs L).flatMap (fun q => [q.1, q.2])) L := by
  intro N
  induction N using Nat.strong_induction_on with
  | _ N ih =>
    intro L hN he
    cases L with
    | nil => rw [slotPairs]; simp
    | cons a t =>
      rcases List.eq_nil_or_concat t with rfl | ⟨mid, b, hmid⟩
      · exfalso
        rw [List.length_cons, List.length_nil] at hN
        omega
      · rw [List.concat_eq_append] at hmid
        subst hmid
        rw [slotPairs_cons_concat, List.flatMap_cons]
        have hN2 : N = mid.length + 2 := by
          rw [List.length_cons, List.length_append, List.length_cons,
            List.length_nil] at hN
          omega
        have hperm := ih (N - 2) (by omega) mid (by omega) (by omega)
        show List.Perm (a :: b :: (slotPairs mid).flatMap (fun q => [q.1, q.2]))
          (a :: (mid ++ [b]))
        refine List.Perm.cons a ?_
        exact (List.Perm.cons b hperm).trans (List.perm_append_singleton b mid).symm

/-- In a pair list whose flattening has no duplicates, every pair has
distinct components and distinct pairs use disjoint components. -/
theorem flat_nodup_structure {α : Type} (ps : List (α × α))
    (h : (ps.flatMap fun q => [q.1, q.2]).Nodup) :
    (∀ q ∈ ps, q.1 ≠ q.2) ∧
      ps.Pairwise (fun q q' =>
        q.1 ≠ q'.1 ∧ q.1 ≠ q'.2 ∧ q.2 ≠ q'.1 ∧ q.2 ≠ q'.2) := by
  induction ps with
  | nil => exact ⟨by simp, List.Pairwise.nil⟩
  | cons q ps ih =>
    rw [List.flatMap_cons, List.nodup_append] at h
    obtain ⟨h1, h2, h3⟩ := h
    refine ⟨?_, ?_⟩
    · intro q' hq'
      rw [List.mem_cons] at hq'
      rcases hq' with rfl | hq'
      · simpa using h1
      · exact ((ih h2).1) q' hq'
    · refine List.Pairwise.cons ?_ (ih h2).2
      intro q' hq'
      have hmem1 : q'.1 ∈ ps.flatMap fun q => [q.1, q.2] :=
        List.mem_flatMap.mpr ⟨q', hq', by simp⟩
      have hmem2 : q'.2 ∈ ps.flatMap fun q => [q.1, q.2] :=
        List.mem_flatMap.mpr ⟨q', hq', by simp⟩
      have d1 : q.1 ∉ ps.flatMap (fun q => [q.1, q.2]) :=
        fun hm => h3 (by simp) hm
      have d2 : q.2 ∉ ps.flatMap (fun q => [q.1, q.2]) :=
        fun hm => h3 (by simp) hm
      exact ⟨fun he => d1 (he ▸ hmem1), fun he => d1 (he ▸ hmem2),
        fun he => d2 (he ▸ hmem1), fun he => d2 (he ▸ hmem2)⟩

/-- Kept matchups flatten into a sublist (after re-wrapping in `some`) of
the flattened slot pairs: dropping the bye pair removes whole pairs. -/
theorem kept_flat_sublist (ps : List (Slot × Slot)) :
    List.Sublist
      (((ps.filterMap keepMatch).flatMap (fun p => [p.1, p.2])).map some)
      (ps.flatMap fun q => [q.1, q.2]) := by
  induction ps with
  | nil => simp
  | cons q ps ih =>
    rcases q with ⟨q1, q2⟩
    rw [List.flatMap_cons, List.filterMap_cons]
    cases q1 with
    | none =>
      show List.Sublist _ (Option.none :: q2 :: _)
      exact (ih.cons _).cons _
    | some x =>
      cases q2 with
      | none =>
        show List.Sublist _ (some x :: Option.none :: _)
        exact (ih.cons _).cons _
      | some y =>
        show List.Sublist
          ((((x, y) :: ps.filterMap keepMatch).flatMap (fun p => [p.1, p.2])).map some)
          (some x :: some y :: _)
        rw [List.flatMap_cons, List.map_append]
        exact (ih.cons₂ _).cons₂ _

/-- The roster produced by `adjustTeams` on distinct team ids has no
duplicates (the bye placeholder is distinct from every real team). -/
theorem nodup_adjustTeams (ids : List Nat) (h : ids.Nodup) :
    (adjustTeams ids).Nodup := by
  unfold adjustTeams
  by_cases hp : ids.length % 2 = 1
  · rw [if_pos hp, List.nodup_append]
    refine ⟨h.map (Option.some_injective Nat), by simp, ?_⟩
    intro s hs
    rcases List.mem_map.mp hs with ⟨x, _, rfl⟩
    simp
  · rw [if_neg hp]
    simpa using h.map (Option.some_injective Nat)

/-- The adjusted roster always has even length. -/
theorem length_adjustTeams_even (ids : List Nat) :
    (adjustTeams ids).length % 2 = 0 := by
  unfold adjustTeams
  by_cases hp : ids.length % 2 = 1
  · rw [if_pos hp]; simp; omega
  · rw [if_neg hp]; simp; omega

/-- Real team ids in the adjusted roster are exactly the input ids. -/
theorem mem_adjustTeams (ids : List Nat) (x : Nat) :
    some x ∈ adjustTeams ids ↔ x ∈ ids := by
  unfold adjustTeams
  by_cases hp : ids.length % 2 = 1 <;> simp [hp]

/-- The flattened slot-pair list of any week on an even nodup roster has no
duplicates. -/
theorem week_slot_flat_nodup (L : List Slot) (w : Nat)
    (hnd : L.Nodup) (he : L.length % 2 = 0) :
    ((slotPairs (rotateTeams L w)).flatMap fun q => [q.1, q.2]).Nodup := by
  have hperm := slotPairs_flat_perm (rotateTeams L w).length (rotateTeams L w) rfl
    (by rw [length_rotateTeams]; exact he)
  exact (hperm.trans (rotateTeams_perm L w)).nodup_iff.mpr hnd

/-- The flattened team-id list of any week of the generator on distinct
team ids has no duplicates. -/
theorem week_matchups_flat_nodup (ids : List Nat) (w : Nat) (hnd : ids.Nodup) :
    ((weekMatchups (adjustTeams ids) w).flatMap fun p => [p.1, p.2]).Nodup := by
  have hslot := week_slot_flat_nodup (adjustTeams ids) w
    (nodup_adjustTeams ids hnd) (length_adjustTeams_even ids)
  have hsub := kept_flat_sublist (slotPairs (rotateTeams (adjustTeams ids) w))
  have : (((weekMatchups (adjustTeams ids) w).flatMap
      (fun p => [p.1, p.2])).map some).Nodup := hslot.sublist hsub
  exact this.of_map some

/-- From pairwise component-disjointness, a team id occurs in at most one
pair of a list. -/
theorem countP_contains_le_one {α : Type} [DecidableEq α]
    (ps : List (α × α)) (t : α)
    (hpw : ps.Pairwise (fun q q' =>
      q.1 ≠ q'.1 ∧ q.1 ≠ q'.2 ∧ q.2 ≠ q'.1 ∧ q.2 ≠ q'.2)) :
    ps.countP (fun p => p.1 = t ∨ p.2 = t) ≤ 1 := by
  induction ps with
  | nil => simp
  | cons q ps ih =>
    rw [List.pairwise_cons] at hpw
    obtain ⟨hq, hps⟩ := hpw
    rw [List.countP_cons]
    by_cases hqt : q.1 = t ∨ q.2 = t
    · have hzero : ps.countP (fun p => decide (p.1 = t ∨ p.2 = t)) = 0 := by
        rw [List.countP_eq_zero]
        intro q' hq'
        simp only [decide_eq_true_eq]
        rintro (h1 | h2)
        · rcases hqt with hq1 | hq2
          · exact (hq q' hq').1 (hq1.trans h1.symm)
          · exact (hq q' hq').2.2.1 (hq2.trans h1.symm)
        · rcases hqt with hq1 | hq2
          · exact (hq q' hq').2.1 (hq1.trans h2.symm)
          · exact (hq q' hq').2.2.2 (hq2.trans h2.symm)
      rw [hzero]
      split <;> simp
    · have : (decide (q.1 = t ∨ q.2 = t)) = false := by simpa using hqt
      rw [this]
      simpa using ih hps

/-- **C6.** On at least two distinct team ids, every week of the generated
schedule pairs no team with itself and lists each team in at most one
pair. -/
theorem C6_no_self_pair_no_double_booking (ids : List Nat) (weeks : Nat)
    (hnd : ids.Nodup) (_hlen : 2 ≤ ids.length) (wk : String)
    (ms : List (Nat × Nat)) (hm : (wk, ms) ∈ generate_round_robin ids weeks) :
    (∀ p ∈ ms, p.1 ≠ p.2) ∧
      (∀ t : Nat, ms.countP (fun p => p.1 = t ∨ p.2 = t) ≤ 1) := by
  obtain ⟨k, _, hk⟩ := List.mem_map.mp hm
  have hms : ms = weekMatchups (adjustTeams ids) (k + 1) :=
    (congrArg Prod.snd hk).symm
  subst hms
  have hflat := week_matchups_flat_nodup ids (k + 1) hnd
  have hstruct := flat_nodup_structure _ hflat
  exact ⟨hstruct.1, fun t => countP_contains_le_one _ t hstruct.2⟩

/- ### The rotation offset determines each pairing: congruence analysis -/

/-- Two unordered pairs over a type are equal exactly when their components
match directly or crosswise. -/
theorem finset_pair_eq {α : Type} [DecidableEq α] (x y u v : α) (hxy : x ≠ y) :
    ({x, y} : Finset α) = {u, v} ↔ (u = x ∧ v = y) ∨ (u = y ∧ v = x) := by
  constructor
  · intro h
    have hu : u ∈ ({x, y} : Finset α) := by rw [h]; simp
    have hv : v ∈ ({x, y} : Finset α) := by rw [h]; simp
    have hx : x ∈ ({u, v} : Finset α) := by rw [← h]; simp
    have hy : y ∈ ({u, v} : Finset α) := by rw [← h]; simp
    simp only [Finset.mem_insert, Finset.mem_singleton] at hu hv hx hy
    rcases hu with rfl | rfl
    · rcases hv with rfl | rfl
      · rcases hy with rfl | rfl
        · exact absurd rfl hxy
        · exact absurd rfl hxy
      · exact Or.inl ⟨rfl, rfl⟩
    · rcases hv with rfl | rfl
      · exact Or.inr ⟨rfl, rfl⟩
      · rcases hx with rfl | rfl
        · exact absurd rfl hxy
        · exact absurd rfl hxy
  · rintro (⟨rfl, rfl⟩ | ⟨rfl, rfl⟩)
    · rfl
    · exact Finset.pair_comm _ _

/-- Two offsets below `m` that complete the same number to a multiple of
`m` are equal. -/
theorem window_cancel (m x r r' : Nat) (hr : r < m) (hr' : r' < m)
    (h1 : m ∣ x + r) (h2 : m ∣ x + r') : r = r' := by
  rcases Nat.le_total r r' with hle | hle
  · have hd : m ∣ (x + r') - (x + r) := Nat.dvd_sub' h2 h1
    have he : (x + r') - (x + r) = r' - r := by omega
    rw [he] at hd
    have := Nat.eq_zero_of_dvd_of_lt hd
    omega
  · have hd : m ∣ (x + r) - (x + r') := Nat.dvd_sub' h1 h2
    have he : (x + r) - (x + r') = r - r' := by omega
    rw [he] at hd
    have := Nat.eq_zero_of_dvd_of_lt hd
    omega

/-- Same as `window_cancel`, with the offsets doubled; `m` odd lets the
factor 2 cancel. -/
theorem double_window_cancel (m x r r' : Nat) (hodd : m % 2 = 1)
    (hr : r < m) (hr' : r' < m)
    (h1 : m ∣ x + 2 * r) (h2 : m ∣ x + 2 * r') : r = r' := by
  have hcop : Nat.Coprime m 2 :=
    Nat.coprime_two_right.mpr (Nat.odd_iff.mpr hodd)
  rcases Nat.le_total r r' with hle | hle
  · have hd : m ∣ 2 * (r' - r) := by
      have hs := Nat.dvd_sub' h2 h1
      have he : (x + 2 * r') - (x + 2 * r) = 2 * (r' - r) := by omega
      rwa [he] at hs
    have hd2 : m ∣ r' - r := hcop.dvd_of_dvd_mul_left hd
    have := Nat.eq_zero_of_dvd_of_lt hd2
    omega
  · have hd : m ∣ 2 * (r - r') := by
      have hs := Nat.dvd_sub' h1 h2
      have he : (x + 2 * r) - (x + 2 * r') = 2 * (r - r') := by omega
      rwa [he] at hs
    have hd2 : m ∣ r - r' := hcop.dvd_of_dvd_mul_left hd
    have := Nat.eq_zero_of_dvd_of_lt hd2
    omega

/-- A valid index of a list can be recovered from the value when the list
has no duplicates. -/
theorem getD_inj_of_nodup (t : List Slot) (hnd : t.Nodup) (i j : Nat)
    (hi : i < t.length) (hj : j < t.length)
    (h : t.getD i none = t.getD j none) : i = j := by
  rw [List.getD_eq_getElem _ _ hi, List.getD_eq_getElem _ _ hj] at h
  exact (List.Nodup.getElem_inj_iff hnd).mp h

/-- `getD` at a valid index is a member. -/
theorem getD_mem_of_lt (t : List Slot) (i : Nat) (hi : i < t.length) :
    t.getD i none ∈ t := by
  rw [List.getD_eq_getElem _ _ hi]
  exact List.getElem_mem hi

/-- The pairing loop runs `⌊n/2⌋` times. -/
theorem length_slotPairs (R : List Slot) :
    (slotPairs R).length = R.length / 2 := by
  simp [slotPairs]

/-- Both components of every produced pair are roster slots. -/
theorem slotPairs_comps_mem (L : List Slot) (w : Nat) (q : Slot × Slot)
    (hq : q ∈ slotPairs (rotateTeams L w)) : q.1 ∈ L ∧ q.2 ∈ L := by
  rw [mem_slotPairs_iff] at hq
  obtain ⟨i, hi, rfl⟩ := hq
  set R := rotateTeams L w with hR
  have hlen : 0 < R.length := by
    rcases Nat.eq_zero_or_pos R.length with h0 | h; · omega
    exact h
  have h1 : i < R.length := lt_of_lt_of_le hi (Nat.div_le_self _ _)
  have h2 : R.length - 1 - i < R.length := by omega
  constructor
  · exact (rotateTeams_perm L w).mem_iff.mp (getD_mem_of_lt R i h1)
  · exact (rotateTeams_perm L w).mem_iff.mp (getD_mem_of_lt R _ h2)

/-- A pair list whose flattening has no duplicates is itself
duplicate-free. -/
theorem pairs_nodup_of_flat {α : Type} (ps : List (α × α))
    (h : (ps.flatMap fun q => [q.1, q.2]).Nodup) : ps.Nodup := by
  have hpw := (flat_nodup_structure ps h).2
  exact hpw.imp (fun hR => fun he => hR.1 (by rw [he]))

/-- Where each pair of week `w` sits in the tail: either it is the head
pair `(a, t[β])` with `β + r + 1 ≡ 0 (mod m)`, or both components are tail
slots at positions `α, β` with `α + β + 2r + 2 ≡ 0 (mod m)`, where
`m = |t|` and `r = (w-1) mod m` is the rotation offset. -/
theorem slotPairs_round_char (a : Slot) (t : List Slot) (w : Nat)
    (q : Slot × Slot) (hq : q ∈ slotPairs (rotateTeams (a :: t) w)) :
    (q.1 = a ∧ ∃ β, β < t.length ∧ q.2 = t.getD β none ∧
        (β + (w - 1) % t.length + 1) % t.length = 0) ∨
    (∃ α β, α < t.length ∧ β < t.length ∧
        q.1 = t.getD α none ∧ q.2 = t.getD β none ∧
        (α + β + 2 * ((w - 1) % t.length) + 2) % t.length = 0) := by
  rw [mem_slotPairs_iff] at hq
  obtain ⟨i, hi, rfl⟩ := hq
  have hRlen : (rotateTeams (a :: t) w).length = t.length + 1 := by
    rw [length_rotateTeams, List.length_cons]
  rw [hRlen] at hi ⊢
  have hm : 1 ≤ t.length := by omega
  have hr : (w - 1) % t.length < t.length := Nat.mod_lt _ (by omega)
  have hidx : t.length + 1 - 1 - i = t.length - i := by omega
  rw [hidx]
  rcases Nat.eq_zero_or_pos i with rfl | hipos
  · -- head pair: a against the slot rotated into the last position
    have ha0 : (rotateTeams (a :: t) w).getD 0 none = a := by
      rw [rotateTeams_cons]
      rfl
    have hlast : (rotateTeams (a :: t) w).getD (t.length - 0) none =
        t.getD ((t.length - 1 + (t.length - (w - 1) % t.length)) % t.length) none := by
      have h := getD_rotateTeams_cons a t w (t.length - 1) (by omega)
      rw [show t.length - 1 + 1 = t.length - 0 by omega] at h
      exact h
    refine Or.inl ⟨ha0,
      (t.length - 1 + (t.length - (w - 1) % t.length)) % t.length,
      Nat.mod_lt _ (by omega), hlast, ?_⟩
    have hcong : Nat.ModEq t.length
        ((t.length - 1 + (t.length - (w - 1) % t.length)) % t.length +
          (w - 1) % t.length + 1)
        (t.length - 1 + (t.length - (w - 1) % t.length) + (w - 1) % t.length + 1) :=
      ((Nat.mod_modEq _ t.length).add_right _).add_right 1
    have hsum : t.length - 1 + (t.length - (w - 1) % t.length) +
        (w - 1) % t.length + 1 = 2 * t.length := by omega
    calc ((t.length - 1 + (t.length - (w - 1) % t.length)) % t.length +
          (w - 1) % t.length + 1) % t.length
        = (t.length - 1 + (t.length - (w - 1) % t.length) +
            (w - 1) % t.length + 1) % t.length := hcong
      _ = (2 * t.length) % t.length := by rw [hsum]
      _ = 0 := Nat.mul_mod_left 2 t.length
  · -- tail pair: both components are rotated tail slots
    have hm2 : 2 ≤ t.length := by omega
    have hiub : 2 * i ≤ t.length := by omega
    have hfst : (rotateTeams (a :: t) w).getD i none =
        t.getD ((i - 1 + (t.length - (w - 1) % t.length)) % t.length) none := by
      have h := getD_rotateTeams_cons a t w (i - 1) (by omega)
      rw [show i - 1 + 1 = i by omega] at h
      exact h
    have hsnd : (rotateTeams (a :: t) w).getD (t.length - i) none =
        t.getD ((t.length - i - 1 + (t.length - (w - 1) % t.length)) % t.length)
          none := by
      have h := getD_rotateTeams_cons a t w (t.length - i - 1) (by omega)
      rw [show t.length - i - 1 + 1 = t.length - i by omega] at h
      exact h
    refine Or.inr ⟨(i - 1 + (t.length - (w - 1) % t.length)) % t.length,
      (t.length - i - 1 + (t.length - (w - 1) % t.length)) % t.length,
      Nat.mod_lt _ (by omega), Nat.mod_lt _ (by omega), hfst, hsnd, ?_⟩
    have hcong : Nat.ModEq t.length
        ((i - 1 + (t.length - (w - 1) % t.length)) % t.length +
          (t.length - i - 1 + (t.length - (w - 1) % t.length)) % t.length +
          2 * ((w - 1) % t.length) + 2)
        (i - 1 + (t.length - (w - 1) % t.length) +
          (t.length - i - 1 + (t.length - (w - 1) % t.length)) +
          2 * ((w - 1) % t.length) + 2) :=
      (((Nat.mod_modEq _ t.length).add (Nat.mod_modEq _ t.length)).add_right
        _).add_right 2
    have hsum : i - 1 + (t.length - (w - 1) % t.length) +
        (t.length - i - 1 + (t.length - (w - 1) % t.length)) +
        2 * ((w - 1) % t.length) + 2 = 3 * t.length := by omega
    calc ((i - 1 + (t.length - (w - 1) % t.length)) % t.length +
          (t.length - i - 1 + (t.length - (w - 1) % t.length)) % t.length +
          2 * ((w - 1) % t.length) + 2) % t.length
        = (i - 1 + (t.length - (w - 1) % t.length) +
            (t.length - i - 1 + (t.length - (w - 1) % t.length)) +
            2 * ((w - 1) % t.length) + 2) % t.length := hcong
      _ = (3 * t.length) % t.length := by rw [hsum]
      _ = 0 := Nat.mul_mod_left 3 t.length

/-- A matchup (as an unordered pair of slots) determines the rotation
offset of the week it was produced in: the circle method never repeats a
pairing within a cycle. -/
theorem pair_determines_round (a : Slot) (t : List Slot) (w w' : Nat)
    (hodd : t.length % 2 = 1) (hnd : (a :: t).Nodup)
    (q q' : Slot × Slot)
    (hq : q ∈ slotPairs (rotateTeams (a :: t) w))
    (hq' : q' ∈ slotPairs (rotateTeams (a :: t) w'))
    (heq : q'.1 = q.1 ∧ q'.2 = q.2 ∨ q'.1 = q.2 ∧ q'.2 = q.1) :
    (w - 1) % t.length = (w' - 1) % t.length := by
  rw [List.nodup_cons] at hnd
  obtain ⟨hat, hndt⟩ := hnd
  have hchar := slotPairs_round_char a t w q hq
  have hchar' := slotPairs_round_char a t w' q' hq'
  set m := t.length with hmdef
  set r := (w - 1) % m with hrdef
  set r' := (w' - 1) % m with hrdef'
  have hm : 1 ≤ m := by omega
  have hr : r < m := Nat.mod_lt _ (by omega)
  have hr' : r' < m := Nat.mod_lt _ (by omega)
  have hTne : ∀ γ, γ < m → t.getD γ none ≠ a := by
    intro γ hγ hcontra
    exact hat (hcontra ▸ getD_mem_of_lt t γ hγ)
  rcases hchar with ⟨hq1, β, hβ, hq2, hcong⟩ | ⟨α, β, hα, hβ, hq1, hq2, hcong⟩ <;>
    rcases hchar' with ⟨hq1', β', hβ', hq2', hcong'⟩ |
      ⟨α', β', hα', hβ', hq1', hq2', hcong'⟩
  · -- both are head pairs
    rcases heq with ⟨_, h22⟩ | ⟨h12, _⟩
    · have hββ : β' = β :=
        getD_inj_of_nodup t hndt β' β hβ' hβ (by rw [← hq2', ← hq2, h22])
      rw [hββ] at hcong'
      exact window_cancel m (β + 1) r r' hr hr'
        (Nat.dvd_of_mod_eq_zero (by rw [show β + 1 + r = β + r + 1 by omega]; exact hcong))
        (Nat.dvd_of_mod_eq_zero (by rw [show β + 1 + r' = β + r' + 1 by omega]; exact hcong'))
    · exfalso
      exact hTne β hβ (by rw [← hq2, ← h12, hq1'])
  · -- q head pair, q' tail pair: impossible, a is not a tail slot
    exfalso
    rcases heq with ⟨h11, _⟩ | ⟨_, h21⟩
    · exact hTne α' hα' (by rw [← hq1', h11, hq1])
    · exact hTne β' hβ' (by rw [← hq2', h21, hq1])
  · -- q tail pair, q' head pair: impossible, a is not a tail slot
    exfalso
    rcases heq with ⟨h11, _⟩ | ⟨h12, _⟩
    · exact hTne α hα (by rw [← hq1, ← h11, hq1'])
    · exact hTne β hβ (by rw [← hq2, ← h12, hq1'])
  · -- both are tail pairs
    have hsums : α' + β' = α + β := by
      rcases heq with ⟨h11, h22⟩ | ⟨h12, h21⟩
      · have e1 : α' = α :=
          getD_inj_of_nodup t hndt α' α hα' hα (by rw [← hq1', ← hq1, h11])
        have e2 : β' = β :=
          getD_inj_of_nodup t hndt β' β hβ' hβ (by rw [← hq2', ← hq2, h22])
        omega
      · have e1 : α' = β :=
          getD_inj_of_nodup t hndt α' β hα' hβ (by rw [← hq1', ← hq2, h12])
        have e2 : β' = α :=
          getD_inj_of_nodup t hndt β' α hβ' hα (by rw [← hq2', ← hq1, h21])
        omega
    refine double_window_cancel m (α + β + 2) r r' hodd hr hr'
      (Nat.dvd_of_mod_eq_zero (by rw [show α + β + 2 + 2 * r = α + β + 2 * r + 2 by omega]; exact hcong))
      (Nat.dvd_of_mod_eq_zero ?_)
    rw [show α + β + 2 + 2 * r' = α' + β' + 2 * r' + 2 by omega]
    exact hcong'

/-- **Exactly-once cycle theorem** (slot level): on an even, duplicate-free
roster `a :: t` (`|t| = m` odd), every unordered pair of distinct slots is
produced exactly once over any `m` consecutive weeks.  Counting argument:
the `m` weeks produce `m * (m+1)/2 = C(m+1, 2)` pairs, all of which are
2-element subsets of the roster and no two of which coincide (within a week
by the flattened-nodup property, across weeks because a pair determines its
rotation offset), so they enumerate every 2-subset exactly once. -/
theorem cycle_pair_once (a : Slot) (t : List Slot) (w0 : Nat)
    (hodd : t.length % 2 = 1) (hnd : (a :: t).Nodup) (hw0 : 1 ≤ w0)
    (s s' : Slot) (hs : s ∈ a :: t) (hs' : s' ∈ a :: t) (hne : s ≠ s') :
    ((List.range t.length).flatMap
        (fun j => slotPairs (rotateTeams (a :: t) (w0 + j)))).countP
      (fun q => q.1 = s ∧ q.2 = s' ∨ q.1 = s' ∧ q.2 = s) = 1 := by
  have hm : 1 ≤ t.length := by omega
  have heL : (a :: t).length % 2 = 0 := by rw [List.length_cons]; omega
  have hweek : ∀ w, ((slotPairs (rotateTeams (a :: t) w)).flatMap
      fun q => [q.1, q.2]).Nodup :=
    fun w => week_slot_flat_nodup (a :: t) w hnd heL
  -- the cycle's pair list and its image as unordered pairs
  have hlen : ((List.range t.length).flatMap
      (fun j => slotPairs (rotateTeams (a :: t) (w0 + j)))).length =
      t.length * ((t.length + 1) / 2) := by
    rw [List.length_flatMap]
    simp only [Function.comp_def]
    have hconst : ∀ j ∈ List.range t.length,
        (slotPairs (rotateTeams (a :: t) (w0 + j))).length =
          (t.length + 1) / 2 := by
      intro j _
      rw [length_slotPairs, length_rotateTeams, List.length_cons]
    rw [List.map_congr_left hconst, List.map_const', List.length_range,
      List.sum_replicate, smul_eq_mul]
  have hpfeq : (((List.range t.length).flatMap
        (fun j => slotPairs (rotateTeams (a :: t) (w0 + j)))).map
      (fun q => ({q.1, q.2} : Finset Slot))) =
      (List.range t.length).flatMap
        (fun j => (slotPairs (rotateTeams (a :: t) (w0 + j))).map
          (fun q => ({q.1, q.2} : Finset Slot))) := List.map_flatMap ..
  have hpfnodup : (((List.range t.length).flatMap
      (fun j => slotPairs (rotateTeams (a :: t) (w0 + j)))).map
      (fun q => ({q.1, q.2} : Finset Slot))).Nodup := by
    rw [hpfeq, List.nodup_flatMap]
    constructor
    · intro j _
      have hstr := flat_nodup_structure _ (hweek (w0 + j))
      show ((slotPairs (rotateTeams (a :: t) (w0 + j))).map
        (fun q => ({q.1, q.2} : Finset Slot))).Pairwise (· ≠ ·)
      rw [List.pairwise_map]
      refine hstr.2.imp ?_
      intro q q' hR hf
      have hq1 : q.1 ∈ ({q'.1, q'.2} : Finset Slot) := by
        rw [← hf]; simp
      simp only [Finset.mem_insert, Finset.mem_singleton] at hq1
      rcases hq1 with h1 | h1
      · exact hR.1 h1
      · exact hR.2.1 h1
    · refine List.Pairwise.imp_of_mem ?_ (List.pairwise_lt_range _)
      intro j j' hjm hj'm hlt
      have hj : j < t.length := List.mem_range.mp hjm
      have hj' : j' < t.length := List.mem_range.mp hj'm
      intro x hx hx'
      rcases List.mem_map.mp hx with ⟨q, hq, rfl⟩
      rcases List.mem_map.mp hx' with ⟨q', hq', hfq⟩
      have hne2 := (flat_nodup_structure _ (hweek (w0 + j))).1 q hq
      have hcross := (finset_pair_eq q.1 q.2 q'.1 q'.2 hne2).mp hfq.symm
      have hround := pair_determines_round a t (w0 + j) (w0 + j') hodd hnd
        q q' hq hq' hcross
      rw [show w0 + j - 1 = (w0 - 1) + j by omega,
        show w0 + j' - 1 = (w0 - 1) + j' by omega] at hround
      have hmeq : Nat.ModEq t.length j j' :=
        Nat.ModEq.add_left_cancel' (w0 - 1) hround
      rw [Nat.ModEq, Nat.mod_eq_of_lt hj, Nat.mod_eq_of_lt hj'] at hmeq
      omega
  have hsubset : ∀ x ∈ ((List.range t.length).flatMap
        (fun j => slotPairs (rotateTeams (a :: t) (w0 + j)))).map
      (fun q => ({q.1, q.2} : Finset Slot)),
      x ∈ Finset.powersetCard 2 (a :: t).toFinset := by
    intro x hx
    rcases List.mem_map.mp hx with ⟨q, hqc, rfl⟩
    rcases List.mem_flatMap.mp hqc with ⟨j, _, hq⟩
    have hmem := slotPairs_comps_mem (a :: t) (w0 + j) q hq
    have hne2 := (flat_nodup_structure _ (hweek (w0 + j))).1 q hq
    rw [Finset.mem_powersetCard]
    constructor
    · intro z hz
      simp only [Finset.mem_insert, Finset.mem_singleton] at hz
      rcases hz with rfl | rfl
      · exact List.mem_toFinset.mpr hmem.1
      · exact List.mem_toFinset.mpr hmem.2
    · exact Finset.card_pair hne2
  have hTcard : (a :: t).toFinset.card = t.length + 1 := by
    rw [List.toFinset_card_of_nodup hnd, List.length_cons]
  obtain ⟨k, hk⟩ : ∃ k, t.length = 2 * k + 1 := ⟨t.length / 2, by omega⟩
  have hcards : (Finset.powersetCard 2 (a :: t).toFinset).card =
      t.length * ((t.length + 1) / 2) := by
    rw [Finset.card_powersetCard, hTcard, Nat.choose_two_right, hk]
    rw [show 2 * k + 1 + 1 - 1 = 2 * k + 1 from by omega,
      show (2 * k + 1 + 1) * (2 * k + 1) = 2 * ((2 * k + 1) * (k + 1)) from by ring,
      Nat.mul_div_cancel_left _ (by norm_num),
      show (2 * k + 1 + 1) / 2 = k + 1 from by omega]
  have hpfin : (((List.range t.length).flatMap
      (fun j => slotPairs (rotateTeams (a :: t) (w0 + j)))).map
      (fun q => ({q.1, q.2} : Finset Slot))).toFinset =
      Finset.powersetCard 2 (a :: t).toFinset := by
    apply Finset.eq_of_subset_of_card_le
    · intro x hx
      exact hsubset x (List.mem_toFinset.mp hx)
    · rw [hcards, List.toFinset_card_of_nodup hpfnodup, List.length_map, hlen]
  have hpair_mem : ({s, s'} : Finset Slot) ∈
      (((List.range t.length).flatMap
        (fun j => slotPairs (rotateTeams (a :: t) (w0 + j)))).map
      (fun q => ({q.1, q.2} : Finset Slot))) := by
    rw [← List.mem_toFinset, hpfin, Finset.mem_powersetCard]
    constructor
    · intro z hz
      simp only [Finset.mem_insert, Finset.mem_singleton] at hz
      rcases hz with rfl | rfl
      · exact List.mem_toFinset.mpr hs
      · exact List.mem_toFinset.mpr hs'
    · exact Finset.card_pair hne
  have hcount : (((List.range t.length).flatMap
      (fun j => slotPairs (rotateTeams (a :: t) (w0 + j)))).map
      (fun q => ({q.1, q.2} : Finset Slot))).count ({s, s'} : Finset Slot) = 1 :=
    List.count_eq_one_of_mem hpfnodup hpair_mem
  have hstep1 : ((List.range t.length).flatMap
        (fun j => slotPairs (rotateTeams (a :: t) (w0 + j)))).countP
      (fun q => q.1 = s ∧ q.2 = s' ∨ q.1 = s' ∧ q.2 = s) =
      ((List.range t.length).flatMap
        (fun j => slotPairs (rotateTeams (a :: t) (w0 + j)))).countP
      (fun q => ({q.1, q.2} : Finset Slot) == ({s, s'} : Finset Slot)) := by
    refine List.countP_congr ?_
    intro q hq
    rcases List.mem_flatMap.mp hq with ⟨j, _, hqw⟩
    have hne2 := (flat_nodup_structure _ (hweek (w0 + j))).1 q hqw
    have hiff : (q.1 = s ∧ q.2 = s' ∨ q.1 = s' ∧ q.2 = s) ↔
        ({q.1, q.2} : Finset Slot) = {s, s'} := by
      rw [finset_pair_eq q.1 q.2 s s' hne2]
      constructor
      · rintro (⟨h1, h2⟩ | ⟨h1, h2⟩)
        · exact Or.inl ⟨h1.symm, h2.symm⟩
        · exact Or.inr ⟨h2.symm, h1.symm⟩
      · rintro (⟨h1, h2⟩ | ⟨h1, h2⟩)
        · exact Or.inl ⟨h1.symm, h2.symm⟩
        · exact Or.inr ⟨h2.symm, h1.symm⟩
    simpa using hiff
  have hstep2 : (((List.range t.length).flatMap
        (fun j => slotPairs (rotateTeams (a :: t) (w0 + j)))).map
        (fun q => ({q.1, q.2} : Finset Slot))).countP
      (fun x => x == ({s, s'} : Finset Slot)) =
      ((List.range t.length).flatMap
        (fun j => slotPairs (rotateTeams (a :: t) (w0 + j)))).countP
      (fun q => ({q.1, q.2} : Finset Slot) == ({s, s'} : Finset Slot)) :=
    List.countP_map ..
  rw [hstep1, ← hstep2]
  exact hcount

/-- The rotation only depends on the week through the offset
`(week - 1) mod (n - 1)`. -/
theorem rotateTeams_congr (L : List Slot) (w w' : Nat)
    (h : (w - 1) % (L.length - 1) = (w' - 1) % (L.length - 1)) :
    rotateTeams L w = rotateTeams L w' := by
  unfold rotateTeams
  dsimp only
  rw [h]

/-- On an even-sized league no bye is appended. -/
theorem adjustTeams_even (ids : List Nat) (heven : ids.length % 2 = 0) :
    adjustTeams ids = ids.map some := by
  unfold adjustTeams
  rw [if_neg (by omega)]
  simp

/-- Counting a matchup among the kept pairs equals counting the
corresponding slot pair before the bye filter (the bye pair can never
match a pair of real ids). -/
theorem countP_keepMatch (ps : List (Slot × Slot)) (x y : Nat) :
    (ps.filterMap keepMatch).countP
      (fun p => p.1 = x ∧ p.2 = y ∨ p.1 = y ∧ p.2 = x) =
    ps.countP
      (fun q => q.1 = some x ∧ q.2 = some y ∨ q.1 = some y ∧ q.2 = some x) := by
  induction ps with
  | nil => rfl
  | cons q ps ih =>
    rcases q with ⟨q1, q2⟩
    rw [List.filterMap_cons]
    cases q1 with
    | none =>
      rw [show keepMatch (none, q2) = none from rfl, List.countP_cons]
      simp only [decide_eq_true_eq]
      rw [ih]
      simp
    | some u =>
      cases q2 with
      | none =>
        rw [show keepMatch (some u, none) = none from rfl, List.countP_cons]
        simp only [decide_eq_true_eq]
        rw [ih]
        simp
      | some v =>
        rw [show keepMatch (some u, some v) = some (u, v) from rfl,
          List.countP_cons, List.countP_cons, ih]
        congr 1
        simp

/-- **C7.** For an even-length list of distinct team ids (adjusted roster
count `n = ids.length`): week `w` of the generated schedule is
`weekMatchups` at `w`; the matchup lists repeat with period `n - 1`; and
within any `n - 1` consecutive weeks every unordered pair of distinct
teams is matched exactly once. -/
theorem C7_period_and_exactly_once (ids : List Nat) (weeks : Nat)
    (hnd : ids.Nodup) (heven : ids.length % 2 = 0) (hlen : 2 ≤ ids.length) :
    (∀ w, 1 ≤ w → w ≤ weeks →
      (generate_round_robin ids weeks)[w - 1]? =
        some (toString w, weekMatchups (adjustTeams ids) w)) ∧
    (∀ w, 1 ≤ w →
      weekMatchups (adjustTeams ids) (w + (ids.length - 1)) =
        weekMatchups (adjustTeams ids) w) ∧
    (∀ w0, 1 ≤ w0 → ∀ x y, x ∈ ids → y ∈ ids → x ≠ y →
      ((List.range (ids.length - 1)).flatMap
          (fun j => weekMatchups (adjustTeams ids) (w0 + j))).countP
        (fun p => p.1 = x ∧ p.2 = y ∨ p.1 = y ∧ p.2 = x) = 1) := by
  have hL : (adjustTeams ids).length = ids.length := by
    rw [adjustTeams_even ids heven, List.length_map]
  refine ⟨?_, ?_, ?_⟩
  · intro w hw1 hw2
    unfold generate_round_robin
    rw [List.getElem?_map, List.getElem?_range (by omega)]
    have hred : Option.map
        (fun k => (toString (k + 1), weekMatchups (adjustTeams ids) (k + 1)))
        (some (w - 1)) =
        some (toString (w - 1 + 1), weekMatchups (adjustTeams ids) (w - 1 + 1)) :=
      rfl
    rw [hred, show w - 1 + 1 = w from by omega]
  · intro w hw
    unfold weekMatchups
    rw [rotateTeams_congr (adjustTeams ids) (w + (ids.length - 1)) w ?_]
    rw [hL, show w + (ids.length - 1) - 1 = (w - 1) + (ids.length - 1) from by omega,
      Nat.add_mod_right]
  · intro w0 hw0 x y hx hy hxy
    cases ids with
    | nil => simp at hlen
    | cons i0 irest =>
      have hadj : adjustTeams (i0 :: irest) = some i0 :: irest.map some := by
        rw [adjustTeams_even _ heven]
        rfl
      have hndL : (some i0 :: irest.map some).Nodup := by
        rw [← hadj]
        exact nodup_adjustTeams _ hnd
      have hodd : (irest.map some).length % 2 = 1 := by
        rw [List.length_map]
        rw [List.length_cons] at heven
        omega
      have hcyc := cycle_pair_once (some i0) (irest.map some) w0 hodd hndL hw0
        (some x) (some y)
        (by rw [← hadj]; exact (mem_adjustTeams _ _).mpr hx)
        (by rw [← hadj]; exact (mem_adjustTeams _ _).mpr hy)
        (by intro h; exact hxy (Option.some_inj.mp h))
      have hmlen : (i0 :: irest).length - 1 = (irest.map some).length := by
        rw [List.length_cons, List.length_map]
        omega
      rw [hmlen]
      have htrans : ∀ j ∈ List.range (irest.map some).length,
          (weekMatchups (adjustTeams (i0 :: irest)) (w0 + j)).countP
            (fun p => p.1 = x ∧ p.2 = y ∨ p.1 = y ∧ p.2 = x) =
          (slotPairs (rotateTeams (some i0 :: irest.map some) (w0 + j))).countP
            (fun q => q.1 = some x ∧ q.2 = some y ∨
              q.1 = some y ∧ q.2 = some x) := by
        intro j _
        rw [weekMatchups, hadj]
        exact countP_keepMatch _ x y
      rw [List.countP_flatMap] at hcyc ⊢
      simp only [Function.comp_def] at hcyc ⊢
      rw [List.map_congr_left htrans]
      exact hcyc

/-- **C7 witness:** concrete instance on the 4-team league: the bridge at
week 1, the period-3 repetition from week 1, and that teams 1 and 2 are
matched exactly once in weeks 1-3. -/
theorem C7_witness :
    (generate_round_robin [1,2,3,4] 3)[0]? =
      some ("1", weekMatchups (adjustTeams [1,2,3,4]) 1) ∧
    weekMatchups (adjustTeams [1,2,3,4]) (1 + 3) =
      weekMatchups (adjustTeams [1,2,3,4]) 1 ∧
    ((List.range 3).flatMap
        (fun j => weekMatchups (adjustTeams [1,2,3,4]) (1 + j))).countP
      (fun p => p.1 = 1 ∧ p.2 = 2 ∨ p.1 = 2 ∧ p.2 = 1) = 1 := by
  have h := C7_period_and_exactly_once [1,2,3,4] 3 (by decide) (by decide)
    (by decide)
  exact ⟨h.1 1 (by decide) (by decide), h.2.1 1 (by decide),
    h.2.2 1 (by decide) 1 2 (by decide) (by decide) (by decide)⟩

/- ### Byes on an odd league -/

/-- On an odd-sized league the bye placeholder is appended. -/
theorem adjustTeams_odd (ids : List Nat) (hodd : ids.length % 2 = 1) :
    adjustTeams ids = ids.map some ++ [none] := by
  unfold adjustTeams
  rw [if_pos hodd]

/-- The bye placeholder is a roster slot on an odd-sized league. -/
theorem none_mem_adjustTeams (ids : List Nat) (hodd : ids.length % 2 = 1) :
    (none : Slot) ∈ adjustTeams ids := by
  rw [adjustTeams_odd ids hodd]
  simp

/-- Every roster slot is used by some pair of the week (the roster has even
size, so the pairing loop covers every position). -/
theorem slot_in_some_pair (L : List Slot) (w : Nat) (he : L.length % 2 = 0)
    (s : Slot) (hs : s ∈ L) :
    ∃ q ∈ slotPairs (rotateTeams L w), q.1 = s ∨ q.2 = s := by
  have hperm := (slotPairs_flat_perm (rotateTeams L w).length (rotateTeams L w)
    rfl (by rw [length_rotateTeams]; exact he)).trans (rotateTeams_perm L w)
  have hmem : s ∈ (slotPairs (rotateTeams L w)).flatMap (fun q => [q.1, q.2]) :=
    hperm.mem_iff.mpr hs
  rcases List.mem_flatMap.mp hmem with ⟨q, hq, hsq⟩
  refine ⟨q, hq, ?_⟩
  simp only [List.mem_cons, List.not_mem_nil, or_false] at hsq
  rcases hsq with h | h
  · exact Or.inl h.symm
  · exact Or.inr h.symm

/-- In a week whose flattened pairs have no duplicates, a slot is used by
at most one pair. -/
theorem pair_containing_unique (ps : List (Slot × Slot))
    (hflat : (ps.flatMap fun q => [q.1, q.2]).Nodup)
    (q q' : Slot × Slot) (hq : q ∈ ps) (hq' : q' ∈ ps) (s : Slot)
    (hsq : q.1 = s ∨ q.2 = s) (hsq' : q'.1 = s ∨ q'.2 = s) : q = q' := by
  by_contra hne
  have hpw := (flat_nodup_structure ps hflat).2
  have hsymm : Symmetric (fun q q' : Slot × Slot =>
      q.1 ≠ q'.1 ∧ q.1 ≠ q'.2 ∧ q.2 ≠ q'.1 ∧ q.2 ≠ q'.2) := by
    rintro u v ⟨h1, h2, h3, h4⟩
    exact ⟨h1.symm, h3.symm, h2.symm, h4.symm⟩
  have hR := hpw.forall hsymm hq hq' hne
  rcases hsq with h | h <;> rcases hsq' with h' | h'
  · exact hR.1 (h.trans h'.symm)
  · exact hR.2.1 (h.trans h'.symm)
  · exact hR.2.2.1 (h.trans h'.symm)
  · exact hR.2.2.2 (h.trans h'.symm)

/-- Membership in a week's flattened matchups, unfolded to the slot pairs:
a team plays exactly when it sits in a kept (bye-free) pair. -/
theorem mem_kept_flat_iff (ps : List (Slot × Slot)) (x : Nat) :
    x ∈ (ps.filterMap keepMatch).flatMap (fun p => [p.1, p.2]) ↔
      ∃ u v, (some u, some v) ∈ ps ∧ (x = u ∨ x = v) := by
  rw [List.mem_flatMap]
  constructor
  · rintro ⟨p, hp, hxp⟩
    rcases List.mem_filterMap.mp hp with ⟨q, hq, hkeep⟩
    rcases q with ⟨q1, q2⟩
    cases q1 with
    | none => exact absurd hkeep (by simp [keepMatch])
    | some u =>
      cases q2 with
      | none => exact absurd hkeep (by simp [keepMatch])
      | some v =>
        have hpv : p = (u, v) := by
          have : keepMatch (some u, some v) = some (u, v) := rfl
          rw [this] at hkeep
          exact (Option.some_inj.mp hkeep).symm
        refine ⟨u, v, hq, ?_⟩
        rw [hpv] at hxp
        simpa using hxp
  · rintro ⟨u, v, huv, hx⟩
    refine ⟨(u, v), List.mem_filterMap.mpr ⟨(some u, some v), huv, rfl⟩, ?_⟩
    simpa using hx

/-- A team id in the input sits out a generated week exactly when some slot
pair of that week pairs it with the bye placeholder. -/
theorem bye_iff (ids : List Nat) (w : Nat) (hnd : ids.Nodup) (x : Nat)
    (hx : x ∈ ids) :
    x ∉ teamsOfWeek ids w ↔
      0 < (slotPairs (rotateTeams (adjustTeams ids) w)).countP
        (fun q => q.1 = some x ∧ q.2 = none ∨ q.1 = none ∧ q.2 = some x) := by
  have hndL := nodup_adjustTeams ids hnd
  have heL := length_adjustTeams_even ids
  have hflat := week_slot_flat_nodup (adjustTeams ids) w hndL heL
  constructor
  · intro hnotin
    obtain ⟨q, hq, hxq⟩ := slot_in_some_pair (adjustTeams ids) w heL (some x)
      ((mem_adjustTeams _ _).mpr hx)
    obtain ⟨q1, q2⟩ := q
    rw [List.countP_pos_iff]
    refine ⟨(q1, q2), hq, ?_⟩
    simp only [decide_eq_true_eq]
    dsimp only at hxq
    rcases hxq with h1 | h2
    · subst h1
      cases q2 with
      | none => exact Or.inl ⟨rfl, rfl⟩
      | some v =>
        exfalso
        apply hnotin
        rw [teamsOfWeek, weekMatchups]
        exact (mem_kept_flat_iff _ x).mpr ⟨x, v, hq, Or.inl rfl⟩
    · subst h2
      cases q1 with
      | none => exact Or.inr ⟨rfl, rfl⟩
      | some u =>
        exfalso
        apply hnotin
        rw [teamsOfWeek, weekMatchups]
        exact (mem_kept_flat_iff _ x).mpr ⟨u, x, hq, Or.inr rfl⟩
  · intro hpos hmem
    rcases List.countP_pos_iff.mp hpos with ⟨q, hq, hpred⟩
    simp only [decide_eq_true_eq] at hpred
    rw [teamsOfWeek, weekMatchups] at hmem
    rcases (mem_kept_flat_iff _ x).mp hmem with ⟨u, v, huv, hxuv⟩
    have hqx : q.1 = some x ∨ q.2 = some x := by
      rcases hpred with ⟨h, _⟩ | ⟨_, h⟩
      · exact Or.inl h
      · exact Or.inr h
    have hq'x : (some u, some v).1 = some x ∨ (some u, some v).2 = some x := by
      rcases hxuv with rfl | rfl
      · exact Or.inl rfl
      · exact Or.inr rfl
    have heqp := pair_containing_unique _ hflat q (some u, some v) hq huv
      (some x) hqx hq'x
    rcases hpred with ⟨_, h2⟩ | ⟨h1, _⟩
    · rw [heqp] at h2
      exact Option.noConfusion h2
    · rw [heqp] at h1
      exact Option.noConfusion h1

/-- In a week with duplicate-free flattened pairs, a given unordered slot
pair occurs at most once. -/
theorem countP_pair_le_one :
    ∀ (ps : List (Slot × Slot)),
      (ps.flatMap fun q => [q.1, q.2]).Nodup → ∀ s s' : Slot,
      ps.countP (fun q => q.1 = s ∧ q.2 = s' ∨ q.1 = s' ∧ q.2 = s) ≤ 1 := by
  intro ps
  induction ps with
  | nil => intro _ s s'; simp
  | cons q ps ih =>
    intro hflat s s'
    rw [List.flatMap_cons, List.nodup_append] at hflat
    obtain ⟨h1, h2, h3⟩ := hflat
    rw [List.countP_cons]
    by_cases hq : (q.1 = s ∧ q.2 = s') ∨ (q.1 = s' ∧ q.2 = s)
    · have hzero : ps.countP
          (fun q => decide (q.1 = s ∧ q.2 = s' ∨ q.1 = s' ∧ q.2 = s)) = 0 := by
        rw [List.countP_eq_zero]
        intro q' hq' hpred'
        simp only [decide_eq_true_eq] at hpred'
        have hsq : s ∈ [q.1, q.2] := by
          rcases hq with ⟨h, _⟩ | ⟨_, h⟩
          · rw [← h]; simp
          · rw [← h]; simp
        have hsps : s ∈ ps.flatMap (fun q => [q.1, q.2]) := by
          rcases hpred' with ⟨h, _⟩ | ⟨_, h⟩
          · exact List.mem_flatMap.mpr ⟨q', hq', by rw [← h]; simp⟩
          · exact List.mem_flatMap.mpr ⟨q', hq', by rw [← h]; simp⟩
        exact h3 hsq hsps
      rw [hzero]
      split <;> simp
    · have hfq : decide (q.1 = s ∧ q.2 = s' ∨ q.1 = s' ∧ q.2 = s) = false := by
        simpa using hq
      rw [hfq]
      simpa using ih h2 s s'

/-- A sum of zeros and ones counts its positive entries. -/
theorem sum_le_one_eq_countP :
    ∀ l : List Nat, (∀ c ∈ l, c ≤ 1) →
      l.sum = l.countP (fun c => 0 < c) := by
  intro l
  induction l with
  | nil => intro _; simp
  | cons c l ih =>
    intro h
    rw [List.sum_cons, List.countP_cons, ih (fun x hx => h x (by simp [hx]))]
    have hc := h c (by simp)
    by_cases h0 : 0 < c
    · rw [if_pos (by simpa using h0)]
      omega
    · rw [if_neg (by simpa using h0)]
      omega

/-- **C8.** On an odd-length list of at least 3 distinct team ids, every
generated week has exactly one input team with no pairing (the bye), and
over any `n - 1` consecutive weeks (`n` the adjusted roster count, so
`n - 1 = ids.length`) each team receives exactly one bye. -/
theorem C8_byes (ids : List Nat) (hnd : ids.Nodup)
    (hodd : ids.length % 2 = 1) (hlen : 3 ≤ ids.length) :
    (∀ w, 1 ≤ w → ∃ b, b ∈ ids ∧ b ∉ teamsOfWeek ids w ∧
      ∀ t2 ∈ ids, t2 ∉ teamsOfWeek ids w → t2 = b) ∧
    (∀ w0, 1 ≤ w0 → ∀ x ∈ ids,
      ((List.range ids.length).map (fun j => w0 + j)).countP
        (fun w => x ∉ teamsOfWeek ids w) = 1) := by
  have hndL := nodup_adjustTeams ids hnd
  have heL := length_adjustTeams_even ids
  constructor
  · intro w _
    have hflat := week_slot_flat_nodup (adjustTeams ids) w hndL heL
    obtain ⟨q, hq, hnq⟩ := slot_in_some_pair (adjustTeams ids) w heL none
      (none_mem_adjustTeams ids hodd)
    obtain ⟨q1, q2⟩ := q
    have hne12 := (flat_nodup_structure _ hflat).1 (q1, q2) hq
    have hcomps := slotPairs_comps_mem (adjustTeams ids) w (q1, q2) hq
    dsimp only at hnq hne12 hcomps
    -- the partner of the bye slot is a real team `b`
    rcases hnq with h1 | h2
    · subst h1
      cases q2 with
      | none => exact absurd rfl hne12
      | some b =>
        have hbids : b ∈ ids := (mem_adjustTeams _ _).mp hcomps.2
        refine ⟨b, hbids, ?_, ?_⟩
        · rw [bye_iff ids w hnd b hbids, List.countP_pos_iff]
          exact ⟨(none, some b), hq, by simp⟩
        · intro t2 ht2 hnt2
          rcases List.countP_pos_iff.mp
            ((bye_iff ids w hnd t2 ht2).mp hnt2) with ⟨q', hq', hpred'⟩
          simp only [decide_eq_true_eq] at hpred'
          have hq'none : q'.1 = none ∨ q'.2 = none := by
            rcases hpred' with ⟨_, h⟩ | ⟨h, _⟩
            · exact Or.inr h
            · exact Or.inl h
          have heqq := pair_containing_unique _ hflat (none, some b) q' hq hq'
            none (Or.inl rfl) hq'none
          rcases hpred' with ⟨ha, _⟩ | ⟨_, hb2⟩
          · rw [← heqq] at ha
            exact Option.noConfusion (show (none : Slot) = some t2 from ha)
          · rw [← heqq] at hb2
            exact (Option.some_inj.mp (show some b = some t2 from hb2)).symm
    · subst h2
      cases q1 with
      | none => exact absurd rfl hne12
      | some b =>
        have hbids : b ∈ ids := (mem_adjustTeams _ _).mp hcomps.1
        refine ⟨b, hbids, ?_, ?_⟩
        · rw [bye_iff ids w hnd b hbids, List.countP_pos_iff]
          exact ⟨(some b, none), hq, by simp⟩
        · intro t2 ht2 hnt2
          rcases List.countP_pos_iff.mp
            ((bye_iff ids w hnd t2 ht2).mp hnt2) with ⟨q', hq', hpred'⟩
          simp only [decide_eq_true_eq] at hpred'
          have hq'none : q'.1 = none ∨ q'.2 = none := by
            rcases hpred' with ⟨_, h⟩ | ⟨h, _⟩
            · exact Or.inr h
            · exact Or.inl h
          have heqq := pair_containing_unique _ hflat (some b, none) q' hq hq'
            none (Or.inr rfl) hq'none
          rcases hpred' with ⟨ha, _⟩ | ⟨_, hb2⟩
          · rw [← heqq] at ha
            exact (Option.some_inj.mp (show some b = some t2 from ha)).symm
          · rw [← heqq] at hb2
            exact Option.noConfusion (show (none : Slot) = some t2 from hb2)
  · intro w0 hw0 x hx
    cases ids with
    | nil => simp at hlen
    | cons i0 irest =>
      have hadj : adjustTeams (i0 :: irest) =
          some i0 :: (irest.map some ++ [none]) := by
        rw [adjustTeams_odd _ hodd]
        rfl
      have hndL2 : (some i0 :: (irest.map some ++ [none])).Nodup := by
        rw [← hadj]
        exact hndL
      have htlen : (irest.map some ++ [none]).length = (i0 :: irest).length := by
        rw [List.length_append, List.length_map, List.length_cons]
        simp
      have hoddt : (irest.map some ++ [none]).length % 2 = 1 := by
        rw [htlen]
        exact hodd
      have hcyc := cycle_pair_once (some i0) (irest.map some ++ [none]) w0 hoddt
        hndL2 hw0 (some x) none
        (by rw [← hadj]; exact (mem_adjustTeams _ _).mpr hx)
        (by rw [← hadj]; exact none_mem_adjustTeams _ hodd)
        (by simp)
      rw [htlen] at hcyc
      -- per-week bye counts are 0 or 1
      have hle1 : ∀ j ∈ List.range (i0 :: irest).length,
          (slotPairs (rotateTeams (adjustTeams (i0 :: irest)) (w0 + j))).countP
            (fun q => q.1 = some x ∧ q.2 = none ∨
              q.1 = none ∧ q.2 = some x) ≤ 1 := by
        intro j _
        exact countP_pair_le_one _
          (week_slot_flat_nodup (adjustTeams (i0 :: irest)) (w0 + j) hndL heL)
          (some x) none
      have h4 : ((List.range (i0 :: irest).length).map (fun j => w0 + j)).countP
          (fun w => x ∉ teamsOfWeek (i0 :: irest) w) =
          (List.range (i0 :: irest).length).countP
          (fun j => x ∉ teamsOfWeek (i0 :: irest) (w0 + j)) :=
        List.countP_map ..
      have h5 : (List.range (i0 :: irest).length).countP
          (fun j => x ∉ teamsOfWeek (i0 :: irest) (w0 + j)) =
          (List.range (i0 :: irest).length).countP
          (fun j => 0 <
            (slotPairs (rotateTeams (adjustTeams (i0 :: irest)) (w0 + j))).countP
              (fun q => q.1 = some x ∧ q.2 = none ∨
                q.1 = none ∧ q.2 = some x)) := by
        refine List.countP_congr ?_
        intro j _
        simpa using bye_iff (i0 :: irest) (w0 + j) hnd x hx
      have h6 : ((List.range (i0 :: irest).length).map
          (fun j => (slotPairs (rotateTeams (adjustTeams (i0 :: irest))
            (w0 + j))).countP
            (fun q => q.1 = some x ∧ q.2 = none ∨
              q.1 = none ∧ q.2 = some x))).countP (fun c => 0 < c) =
          (List.range (i0 :: irest).length).countP
            (fun j => 0 <
              (slotPairs (rotateTeams (adjustTeams (i0 :: irest))
                (w0 + j))).countP
                (fun q => q.1 = some x ∧ q.2 = none ∨
                  q.1 = none ∧ q.2 = some x)) := List.countP_map ..
      have h7 : ((List.range (i0 :: irest).length).map
          (fun j => (slotPairs (rotateTeams (adjustTeams (i0 :: irest))
            (w0 + j))).countP
            (fun q => q.1 = some x ∧ q.2 = none ∨
              q.1 = none ∧ q.2 = some x))).sum = 1 := by
        have hcf : ((List.range (i0 :: irest).length).flatMap
            (fun j => slotPairs (rotateTeams (adjustTeams (i0 :: irest))
              (w0 + j)))).countP
            (fun q => q.1 = some x ∧ q.2 = none ∨
              q.1 = none ∧ q.2 = some x) =
            ((List.range (i0 :: irest).length).map
              (fun j => (slotPairs (rotateTeams (adjustTeams (i0 :: irest))
                (w0 + j))).countP
                (fun q => q.1 = some x ∧ q.2 = none ∨
                  q.1 = none ∧ q.2 = some x))).sum :=
          List.countP_flatMap ..
        rw [← hcf, hadj]
        exact hcyc
      rw [h4, h5, ← h6, ← sum_le_one_eq_countP _ (by
        intro c hc
        rcases List.mem_map.mp hc with ⟨j, hj, rfl⟩
        exact hle1 j hj)]
      exact h7

/-- **C8 witness:** on the 3-team league, week 1 byes exactly team 1, and
team 1 is byed exactly once over the 3-week cycle starting at week 1. -/
theorem C8_witness :
    (∃ b, b ∈ ([1, 2, 3] : List Nat) ∧ b ∉ teamsOfWeek [1, 2, 3] 1 ∧
      ∀ t2 ∈ ([1, 2, 3] : List Nat), t2 ∉ teamsOfWeek [1, 2, 3] 1 → t2 = b) ∧
    ((List.range 3).map (fun j => 1 + j)).countP
      (fun w => 1 ∉ teamsOfWeek [1, 2, 3] w) = 1 := by
  have h := C8_byes [1, 2, 3] (by decide) (by decide) (by decide)
  exact ⟨h.1 1 (by decide), h.2 1 (by decide) 1 (by decide)⟩

/-- **C6 witness:** for the 4-team league and week 1 = `[[1,4],[2,3]]`,
no pair is a self-pair and team 2 occurs in at most one pair. -/
theorem C6_witness :
    (∀ p ∈ ([(1,4),(2,3)] : List (Nat × Nat)), p.1 ≠ p.2) ∧
      ([(1,4),(2,3)] : List (Nat × Nat)).countP
        (fun p => p.1 = 2 ∨ p.2 = 2) ≤ 1 := by
  have h := C6_no_self_pair_no_double_booking [1,2,3,4] 1 (by decide) (by decide)
    "1" [(1,4),(2,3)] (by decide)
  exact ⟨h.1, h.2 2⟩
